import Mathlib

/-!
Verification of the adaptive title layout engine of `notion2note_article`
(`src/core/image_generator.py`).

The engine is embedded shallowly:

* A Title is a `List Char` (Python strings are sequences of Unicode scalar
  values, and `len`/indexing act on scalar values).
* The glyph-measuring capability `draw.textbbox(...)[2] - bbox[0]` is an
  abstract parameter `width : List Char → Nat`.
* Pixel arithmetic on machine ints is plain `Nat`/`Int` arithmetic; the only
  real-division in the engine (`y / IMAGE_HEIGHT` in the gradient) is modelled
  exactly as rational arithmetic, with Python's `int(...)` truncation being
  floor on the non-negative values that occur.
* The background loader's filesystem and decoder are abstract parameters; a
  Python exception raised by `Image.open` is an `Except.error`.
-/

/-- Canvas width, from `config.py` (`IMAGE_WIDTH = 1280`). -/
def IMAGE_WIDTH : Nat := 1280

/-- Canvas height, from `config.py` (`IMAGE_HEIGHT = 670`). -/
def IMAGE_HEIGHT : Nat := 670

/-- Maximum text width, `int(IMAGE_WIDTH * 0.8)` in `_add_title_text`.
`1280 * 0.8 = 1024.0` is exact in binary floating point, so the value is
`1024 = IMAGE_WIDTH * 8 / 10`. -/
def MAX_TEXT_WIDTH : Nat := IMAGE_WIDTH * 8 / 10

/-- Coarse script class returned by `_get_char_type` (the Python function
returns the strings "kanji", "hiragana", "katakana", "alpha", "digit",
"other"). -/
inductive CharType : Type
  | kanji
  | hiragana
  | katakana
  | alpha
  | digit
  | other
deriving DecidableEq, Repr

/-- `_is_kanji`: CJK Unified Ideographs U+4E00..U+9FFF or Extension A
U+3400..U+4DBF. -/
def _is_kanji (c : Char) : Bool :=
  (0x4E00 ≤ c.toNat && c.toNat ≤ 0x9FFF) || (0x3400 ≤ c.toNat && c.toNat ≤ 0x4DBF)

/-- `_is_hiragana`: U+3040..U+309F. -/
def _is_hiragana (c : Char) : Bool :=
  0x3040 ≤ c.toNat && c.toNat ≤ 0x309F

/-- `_is_katakana`: U+30A0..U+30FF. -/
def _is_katakana (c : Char) : Bool :=
  0x30A0 ≤ c.toNat && c.toNat ≤ 0x30FF

/-- `char.isascii() and char.isalpha()` for a single character: an ASCII
letter. -/
def _is_ascii_alpha (c : Char) : Bool :=
  (0x41 ≤ c.toNat && c.toNat ≤ 0x5A) || (0x61 ≤ c.toNat && c.toNat ≤ 0x7A)

/-- The code points for which Python's `char.isdigit()` is true: the
characters with Unicode Numeric_Type Decimal (category Nd, which includes the
ASCII digits, the full-width digits U+FF10..U+FF19 common in Japanese text,
and every other script's decimal digits) or Numeric_Type Digit (superscripts,
subscripts, circled digits, ...), transcribed from the Unicode 14.0 character
database used by the CPython runtime. -/
def PYTHON_DIGIT_RANGES : List (Nat × Nat) :=
  [(0x30, 0x39), (0xB2, 0xB3), (0xB9, 0xB9), (0x660, 0x669), (0x6F0, 0x6F9),
   (0x7C0, 0x7C9), (0x966, 0x96F), (0x9E6, 0x9EF), (0xA66, 0xA6F),
   (0xAE6, 0xAEF), (0xB66, 0xB6F), (0xBE6, 0xBEF), (0xC66, 0xC6F),
   (0xCE6, 0xCEF), (0xD66, 0xD6F), (0xDE6, 0xDEF), (0xE50, 0xE59),
   (0xED0, 0xED9), (0xF20, 0xF29), (0x1040, 0x1049), (0x1090, 0x1099),
   (0x1369, 0x1371), (0x17E0, 0x17E9), (0x1810, 0x1819), (0x1946, 0x194F),
   (0x19D0, 0x19DA), (0x1A80, 0x1A89), (0x1A90, 0x1A99), (0x1B50, 0x1B59),
   (0x1BB0, 0x1BB9), (0x1C40, 0x1C49), (0x1C50, 0x1C59), (0x2070, 0x2070),
   (0x2074, 0x2079), (0x2080, 0x2089), (0x2460, 0x2468), (0x2474, 0x247C),
   (0x2488, 0x2490), (0x24EA, 0x24EA), (0x24F5, 0x24FD), (0x24FF, 0x24FF),
   (0x2776, 0x277E), (0x2780, 0x2788), (0x278A, 0x2792), (0xA620, 0xA629),
   (0xA8D0, 0xA8D9), (0xA900, 0xA909), (0xA9D0, 0xA9D9), (0xA9F0, 0xA9F9),
   (0xAA50, 0xAA59), (0xABF0, 0xABF9), (0xFF10, 0xFF19), (0x104A0, 0x104A9),
   (0x10A40, 0x10A43), (0x10D30, 0x10D39), (0x10E60, 0x10E68),
   (0x11052, 0x1105A), (0x11066, 0x1106F), (0x110F0, 0x110F9),
   (0x11136, 0x1113F), (0x111D0, 0x111D9), (0x112F0, 0x112F9),
   (0x11450, 0x11459), (0x114D0, 0x114D9), (0x11650, 0x11659),
   (0x116C0, 0x116C9), (0x11730, 0x11739), (0x118E0, 0x118E9),
   (0x11950, 0x11959), (0x11C50, 0x11C59), (0x11D50, 0x11D59),
   (0x11DA0, 0x11DA9), (0x16A60, 0x16A69), (0x16AC0, 0x16AC9),
   (0x16B50, 0x16B59), (0x1D7CE, 0x1D7FF), (0x1E140, 0x1E149),
   (0x1E2F0, 0x1E2F9), (0x1E950, 0x1E959), (0x1F100, 0x1F10A),
   (0x1FBF0, 0x1FBF9)]

/-- `char.isdigit()` for a single character: membership in one of the
`PYTHON_DIGIT_RANGES`. -/
def _is_digit (c : Char) : Bool :=
  PYTHON_DIGIT_RANGES.any fun r => r.1 ≤ c.toNat && c.toNat ≤ r.2

/-- `_get_char_type`: classify one character, first match wins, default
`other`. -/
def _get_char_type (c : Char) : CharType :=
  if _is_kanji c then CharType.kanji
  else if _is_hiragana c then CharType.hiragana
  else if _is_katakana c then CharType.katakana
  else if _is_ascii_alpha c then CharType.alpha
  else if _is_digit c then CharType.digit
  else CharType.other

/-- `LINE_START_PROHIBITED` (行頭禁則文字), the exact characters of the set
literal in the source: particles, small kana, closing punctuation and
brackets. -/
def LINE_START_PROHIBITED : List Char :=
  ("がをはにでともへやのかなよねわ" ++
   "ぁぃぅぇぉっゃゅょゎ" ++
   "ァィゥェォッャュョヮヵヶ" ++
   "。、．，！？）」』】〉》）]｝・：；ー～").toList

/-- `LINE_END_PROHIBITED` (行末禁則文字): opening brackets. -/
def LINE_END_PROHIBITED : List Char :=
  ("（「『【〈《([｛").toList

/-- `_calculate_font_size`: step function of the title's character count. -/
def _calculate_font_size (title : List Char) : Nat :=
  if title.length ≤ 10 then 120
  else if title.length ≤ 15 then 100
  else if title.length ≤ 20 then 85
  else if title.length ≤ 25 then 70
  else if title.length ≤ 30 then 60
  else 50

/-- `GRADIENT_START = (102, 126, 234)`. -/
def GRADIENT_START : Nat × Nat × Nat := (102, 126, 234)

/-- `GRADIENT_END = (118, 75, 162)`. -/
def GRADIENT_END : Nat × Nat × Nat := (118, 75, 162)

/-- Red channel of the gradient row `y`:
`int(102 + (118 - 102) * (y / IMAGE_HEIGHT))`.  The value is non-negative, so
`int` truncation is floor and the exact rational value gives
`(102 * 670 + 16 * y) / 670` in `Nat` division. -/
def gradR (y : Nat) : Nat := (102 * IMAGE_HEIGHT + 16 * y) / IMAGE_HEIGHT

/-- Green channel of the gradient row `y`:
`int(126 + (75 - 126) * (y / IMAGE_HEIGHT))`, i.e. floor of
`(126 * 670 - 51 * y) / 670` (non-negative for all drawn rows `y < 670`). -/
def gradG (y : Nat) : Nat := (126 * IMAGE_HEIGHT - 51 * y) / IMAGE_HEIGHT

/-- Blue channel of the gradient row `y`:
`int(234 + (162 - 234) * (y / IMAGE_HEIGHT))`, i.e. floor of
`(234 * 670 - 72 * y) / 670` (non-negative for all drawn rows `y < 670`). -/
def gradB (y : Nat) : Nat := (234 * IMAGE_HEIGHT - 72 * y) / IMAGE_HEIGHT

/-- `_create_gradient_background`, viewed as the colour of each horizontal
scanline: `draw.line([(0, y), (IMAGE_WIDTH, y)], fill=(r, g, b))` paints the
whole row `y` with the interpolated colour. -/
def _create_gradient_background (y : Nat) : Nat × Nat × Nat :=
  (gradR y, gradG y, gradB y)

/-- Membership of a would-be line starter in `LINE_START_PROHIBITED`; Python's
`new_line_start in LINE_START_PROHIBITED` where `new_line_start` may be the
empty string (modelled `none`), which is never a member of a set of
1-character strings. -/
def inStartProhibited : Option Char → Bool
  | none => false
  | some c => decide (c ∈ LINE_START_PROHIBITED)

/-- Membership of a would-be line ender in `LINE_END_PROHIBITED`; `none`
models Python's empty string. -/
def inEndProhibited : Option Char → Bool
  | none => false
  | some c => decide (c ∈ LINE_END_PROHIBITED)

/-- The guarded classification `_get_char_type(ch) if ch else "other"` used on
both sides of a candidate break. -/
def charTypeOf : Option Char → CharType
  | none => CharType.other
  | some c => _get_char_type c

/-- The character that would start the new line at split position `pos`:
`current_line[pos] if pos < len(current_line) else next_char`. -/
def starterAt (current_line : List Char) (next_char : Option Char) (pos : Nat) :
    Option Char :=
  if pos < current_line.length then current_line.get? pos else next_char

/-- The character that would end the current line at split position `pos`:
`current_line[pos - 1] if pos > 0 else ""`. -/
def enderAt (current_line : List Char) (pos : Nat) : Option Char :=
  if 0 < pos then current_line.get? (pos - 1) else none

/-- The two `continue` guards of `_find_best_break_point`: the candidate is
skipped when its starter is prohibited at line start or its ender is
prohibited at line end. -/
def rejectedAt (current_line : List Char) (next_char : Option Char) (pos : Nat) :
    Bool :=
  inStartProhibited (starterAt current_line next_char pos) ||
  inEndProhibited (enderAt current_line pos)

/-- The score of a surviving candidate, computed exactly as the sequence of
updates in `_find_best_break_point`: start at 0; −100 for kanji–kanji; −50
for katakana–katakana; −50 for alpha–alpha; +30 for hiragana→kanji; +10 when
the two classes differ; plus the raw position. -/
def scoreAt (current_line : List Char) (next_char : Option Char) (pos : Nat) :
    Int :=
  let end_type := charTypeOf (enderAt current_line pos)
  let start_type := charTypeOf (starterAt current_line next_char pos)
  let s0 : Int := 0
  let s1 := if end_type = CharType.kanji ∧ start_type = CharType.kanji
            then s0 - 100 else s0
  let s2 := if end_type = CharType.katakana ∧ start_type = CharType.katakana
            then s1 - 50 else s1
  let s3 := if end_type = CharType.alpha ∧ start_type = CharType.alpha
            then s2 - 50 else s2
  let s4 := if end_type = CharType.hiragana ∧ start_type = CharType.kanji
            then s3 + 30 else s3
  let s5 := if end_type ≠ start_type then s4 + 10 else s4
  s5 + pos

/-- The candidate positions enumerated by `range(len(current_line), 0, -1)`:
`[n, n-1, ..., 1]`. -/
def posList : Nat → List Nat
  | 0 => []
  | n + 1 => (n + 1) :: posList n

/-- The `break_candidates` list of `_find_best_break_point`: every
non-rejected position from `len(current_line)` down to 1, paired with its
score. -/
def candidateList (current_line : List Char) (next_char : Option Char) :
    List (Nat × Int) :=
  (posList current_line.length).filterMap fun pos =>
    if rejectedAt current_line next_char pos then none
    else some (pos, scoreAt current_line next_char pos)

/-- Python's `max(xs, key=lambda x: x[1])` on a non-empty list: fold keeping
the current best, replacing it only on a strictly larger key — so ties keep
the earliest element. -/
def pickMax (first : Nat × Int) (rest : List (Nat × Int)) : Nat × Int :=
  rest.foldl (fun best cand => if best.2 < cand.2 then cand else best) first

/-- `_find_best_break_point(current_line, full_text, next_char_idx)`:
returns 0 for an empty buffer, the best-scoring surviving candidate
otherwise, or `len(current_line)` when no candidate survives. `next_char` is
`full_text[next_char_idx]` when the index is in range, else the empty string
(`none`). -/
def _find_best_break_point (current_line full_text : List Char)
    (next_char_idx : Nat) : Nat :=
  if current_line = [] then 0
  else
    match candidateList current_line (full_text.get? next_char_idx) with
    | [] => current_line.length
    | c :: cs => (pickMax c cs).1

/-- The accumulation loop of `_wrap_text` over the remaining characters.
`full_text` and the running index `i` are carried because
`_find_best_break_point` receives them; `rest` is `full_text[i:]`. -/
def _wrap_text_go (width : List Char → Nat) (max_width : Nat)
    (full_text : List Char) :
    List Char → Nat → List Char → List (List Char) → List (List Char)
  | [], _, current_line, lines =>
      if current_line = [] then lines else lines ++ [current_line]
  | ch :: rest, i, current_line, lines =>
      let test_line := current_line ++ [ch]
      if width test_line ≤ max_width then
        _wrap_text_go width max_width full_text rest (i + 1) test_line lines
      else
        if current_line = [] then
          _wrap_text_go width max_width full_text rest (i + 1) [ch] lines
        else
          let break_pos := _find_best_break_point current_line full_text i
          if 0 < break_pos ∧ break_pos < current_line.length then
            _wrap_text_go width max_width full_text rest (i + 1)
              (current_line.drop break_pos ++ [ch])
              (lines ++ [current_line.take break_pos])
          else
            _wrap_text_go width max_width full_text rest (i + 1) [ch]
              (lines ++ [current_line])

/-- `_wrap_text(text, font, max_width, draw)` with the glyph measure
abstracted: run the loop from the start, and return `[text]` when the loop
produced no lines (`return lines if lines else [text]`). -/
def _wrap_text (width : List Char → Nat) (max_width : Nat) (text : List Char) :
    List (List Char) :=
  let lines := _wrap_text_go width max_width text text 0 [] []
  if lines = [] then [text] else lines

/-- Every split position of the buffer `A` is rejected by the prohibition
checks when the overflowing character is `c`: this is the condition under
which `_find_best_break_point` falls back to `len(buffer)`. -/
def AllRejected (A : List Char) (c : Char) : Prop :=
  ∀ p, 1 ≤ p → p ≤ A.length → rejectedAt A (some c) p = true

/-- Relation between consecutive produced Lines: the later Line starts with a
`LINE_START_PROHIBITED` character only if every split of the earlier Line
(the buffer that was flushed whole) was rejected. -/
def GoodPair (A l : List Char) : Prop :=
  ∀ c, l.head? = some c → c ∈ LINE_START_PROHIBITED → AllRejected A c

/-- Base of the background image path. The source builds
`BACKGROUND_IMAGE_PATH = os.path.join(ASSETS_DIR, "header_background.png")`
and derives each candidate with `BACKGROUND_IMAGE_PATH.replace(".png", ext)`;
since `".png"` occurs exactly once, at the end, that equals base + ext. The
absolute `ASSETS_DIR` is modelled by the fixed relative name. -/
def BACKGROUND_IMAGE_BASE : String := "assets/header_background"

/-- The candidate background path for one extension. -/
def candidatePath (ext : String) : String := BACKGROUND_IMAGE_BASE ++ ext

/-- The extensions tried in order by `_load_background_image`. -/
def backgroundExtensions : List String := [".png", ".jpg", ".jpeg"]

/-- The extension loop of `_load_background_image`: for the first extension
whose candidate path exists, open, convert and resize the image — any
exception raised there (a decode failure) propagates as `Except.error` — and
if no candidate path exists, fall back to the gradient. `fs_exists` models
`os.path.exists` and `open_resize` models
`Image.open(path).convert("RGB").resize(...)`. -/
def _load_background_image_go {Img : Type} (fs_exists : String → Bool)
    (open_resize : String → Except String Img) (gradient : Img) :
    List String → Except String Img
  | [] => Except.ok gradient
  | ext :: rest =>
      if fs_exists (candidatePath ext) then open_resize (candidatePath ext)
      else _load_background_image_go fs_exists open_resize gradient rest

/-- `_load_background_image`: try `.png`, `.jpg`, `.jpeg` in order, falling
back to the gradient when none exists. -/
def _load_background_image {Img : Type} (fs_exists : String → Bool)
    (open_resize : String → Except String Img) (gradient : Img) :
    Except String Img :=
  _load_background_image_go fs_exists open_resize gradient
    backgroundExtensions

/-- The wrap loop only ever appends to `lines`, and the concatenation of its
output is the concatenation of the accumulator, the buffer and the remaining
input. -/
theorem wrap_go_join (width : List Char → Nat) (max_width : Nat)
    (full_text : List Char) :
    ∀ (rest : List Char) (i : Nat) (current_line : List Char)
      (lines : List (List Char)),
      (_wrap_text_go width max_width full_text rest i current_line
          lines).flatten =
        lines.flatten ++ current_line ++ rest := by
  intro rest
  induction rest with
  | nil =>
    intro i current_line lines
    simp only [_wrap_text_go]
    split
    · next h => subst h; simp
    · simp
  | cons ch rest ih =>
    intro i current_line lines
    simp only [_wrap_text_go]
    split
    · rw [ih]; simp
    · split
      · next h => subst h; rw [ih]; simp
      · split
        · rw [ih]
          simp [List.append_assoc]
          rw [← List.append_assoc, List.take_append_drop]
        · rw [ih]; simp

/-- Every line the wrap loop emits is non-empty, provided the accumulator has
only non-empty lines (the buffer is only flushed when non-empty, the break
branch guards `0 < break_pos`). -/
theorem wrap_go_ne_nil (width : List Char → Nat) (max_width : Nat)
    (full_text : List Char) :
    ∀ (rest : List Char) (i : Nat) (current_line : List Char)
      (lines : List (List Char)),
      (∀ l ∈ lines, l ≠ []) →
      ∀ l ∈ _wrap_text_go width max_width full_text rest i current_line lines,
        l ≠ [] := by
  intro rest
  induction rest with
  | nil =>
    intro i current_line lines hlines l hl
    simp only [_wrap_text_go] at hl
    split at hl
    · exact hlines l hl
    · next h =>
      rcases List.mem_append.mp hl with h1 | h1
      · exact hlines l h1
      · simp at h1; subst h1; exact h
  | cons ch rest ih =>
    intro i current_line lines hlines l hl
    simp only [_wrap_text_go] at hl
    split at hl
    · exact ih _ _ _ hlines l hl
    · split at hl
      · exact ih _ _ _ hlines l hl
      · split at hl
        · next hne hbp =>
          refine ih _ _ _ ?_ l hl
          intro l' hl'
          rcases List.mem_append.mp hl' with h1 | h1
          · exact hlines l' h1
          · simp at h1; subst h1
            intro hnil
            have hlen := congrArg List.length hnil
            simp only [List.length_take, List.length_nil] at hlen
            omega
        · next hne _ =>
          refine ih _ _ _ ?_ l hl
          intro l' hl'
          rcases List.mem_append.mp hl' with h1 | h1
          · exact hlines l' h1
          · simp at h1; subst h1; exact hne

/-- Membership in the candidate position list: `p ∈ [n, ..., 1]` iff
`1 ≤ p ≤ n`. -/
theorem mem_posList {p n : Nat} : p ∈ posList n ↔ 1 ≤ p ∧ p ≤ n := by
  induction n with
  | zero => simp [posList]; omega
  | succ n ih => simp [posList, ih]; omega

/-- Python's first-max fold returns an element of the list it scans. -/
theorem pickMax_mem (first : Nat × Int) (rest : List (Nat × Int)) :
    pickMax first rest ∈ first :: rest := by
  induction rest generalizing first with
  | nil => simp [pickMax]
  | cons y ys ih =>
    have h := ih (if first.2 < y.2 then y else first)
    simp only [pickMax, List.foldl_cons] at *
    by_cases hc : first.2 < y.2 <;> simp [hc] at h ⊢ <;> tauto

/-- Membership in `break_candidates`: exactly the in-range positions that
survive both prohibition checks, paired with their score. -/
theorem mem_candidateList {current_line : List Char} {next_char : Option Char}
    {x : Nat × Int} :
    x ∈ candidateList current_line next_char ↔
      1 ≤ x.1 ∧ x.1 ≤ current_line.length ∧
      rejectedAt current_line next_char x.1 = false ∧
      x.2 = scoreAt current_line next_char x.1 := by
  rcases x with ⟨a, b⟩
  unfold candidateList
  simp only [List.mem_filterMap]
  constructor
  · rintro ⟨p, hp, hf⟩
    rw [mem_posList] at hp
    by_cases hr : rejectedAt current_line next_char p = true
    · simp [hr] at hf
    · simp [hr] at hf
      obtain ⟨hp1, hp2⟩ := hf
      subst hp1; subst hp2
      exact ⟨hp.1, hp.2, by simpa using hr, rfl⟩
  · rintro ⟨h1, h2, h3, h4⟩
    subst h4
    exact ⟨a, mem_posList.mpr ⟨h1, h2⟩, by simp [h3]⟩

/-- Case analysis on `_find_best_break_point` for a non-empty buffer: either
no candidate survived and the result is `len(buffer)`, or the result is an
in-range surviving candidate. -/
theorem fbbp_cases (buf full : List Char) (idx : Nat) (h : buf ≠ []) :
    (candidateList buf (full.get? idx) = [] ∧
      _find_best_break_point buf full idx = buf.length) ∨
    (1 ≤ _find_best_break_point buf full idx ∧
     _find_best_break_point buf full idx ≤ buf.length ∧
     rejectedAt buf (full.get? idx) (_find_best_break_point buf full idx)
       = false) := by
  have hb : _find_best_break_point buf full idx =
      (match candidateList buf (full.get? idx) with
       | [] => buf.length
       | c :: cs => (pickMax c cs).1) := by
    unfold _find_best_break_point
    simp [h]
  rcases hc : candidateList buf (full.get? idx) with _ | ⟨c, cs⟩
  · rw [hc] at hb
    exact Or.inl ⟨rfl, hb⟩
  · rw [hc] at hb
    have hm := pickMax_mem c cs
    rw [← hc] at hm
    have hx := mem_candidateList.mp hm
    right
    rw [hb]
    exact ⟨hx.1, hx.2.1, hx.2.2.1⟩

/-- The enumerated positions `[n, ..., 1]` are strictly decreasing. -/
theorem posList_pairwise (n : Nat) :
    (posList n).Pairwise (fun a b => b < a) := by
  induction n with
  | zero => simp [posList]
  | succ n ih =>
    simp only [posList, List.pairwise_cons]
    exact ⟨fun p hp => by have := mem_posList.mp hp; omega, ih⟩

/-- `filterMap` with a position-preserving function keeps the strict descent
of the positions. -/
theorem filterMap_pairwise_fst {f : Nat → Option (Nat × Int)}
    (hf : ∀ p x, f p = some x → x.1 = p) :
    ∀ ps : List Nat, ps.Pairwise (fun a b => b < a) →
      (ps.filterMap f).Pairwise (fun a b => b.1 < a.1) := by
  intro ps
  induction ps with
  | nil => simp
  | cons p ps ih =>
    intro hp
    rw [List.pairwise_cons] at hp
    obtain ⟨hall, htail⟩ := hp
    simp only [List.filterMap_cons]
    cases hfp : f p with
    | none => exact ih htail
    | some x =>
      rw [List.pairwise_cons]
      refine ⟨?_, ih htail⟩
      intro y hy
      obtain ⟨q, hq, hfq⟩ := List.mem_filterMap.mp hy
      rw [hf q y hfq, hf p x hfp]
      exact hall q hq

/-- The first components of `break_candidates` are strictly decreasing. -/
theorem candidateList_pairwise (current_line : List Char)
    (next_char : Option Char) :
    (candidateList current_line next_char).Pairwise
      (fun a b => b.1 < a.1) := by
  unfold candidateList
  refine filterMap_pairwise_fst ?_ _ (posList_pairwise current_line.length)
  intro p x h
  by_cases hr : rejectedAt current_line next_char p = true
  · simp [hr] at h
  · simp [hr] at h
    rw [← h]

/-- `break_candidates` is empty exactly when every in-range position is
rejected by the prohibition checks. -/
theorem candidateList_eq_nil_iff {current_line : List Char}
    {next_char : Option Char} :
    candidateList current_line next_char = [] ↔
      ∀ p, 1 ≤ p → p ≤ current_line.length →
        rejectedAt current_line next_char p = true := by
  constructor
  · intro h p h1 h2
    by_contra hr
    have hm : (p, scoreAt current_line next_char p) ∈
        candidateList current_line next_char :=
      mem_candidateList.mpr ⟨h1, h2, by simpa using hr, rfl⟩
    rw [h] at hm
    simp at hm
  · intro h
    cases hc : candidateList current_line next_char with
    | nil => rfl
    | cons c cs =>
      have hm := mem_candidateList.mp (hc ▸ List.mem_cons_self c cs)
      have := h c.1 hm.1 hm.2.1
      rw [hm.2.2.1] at this
      exact absurd this (by simp)

/-- Python's first-max fold: the result's key is maximal, and among equal
keys the result is the earliest scanned element — here, thanks to the strict
descent of positions, the one with the largest position. -/
theorem pickMax_spec :
    ∀ (rest : List (Nat × Int)) (first : Nat × Int),
      (∀ y ∈ rest, y.1 < first.1) →
      rest.Pairwise (fun a b => b.1 < a.1) →
      (∀ y ∈ first :: rest, y.2 ≤ (pickMax first rest).2) ∧
      (∀ y ∈ first :: rest, y.2 = (pickMax first rest).2 →
        y.1 ≤ (pickMax first rest).1) := by
  intro rest
  induction rest with
  | nil => intro first _ _; simp [pickMax]
  | cons y ys ih =>
    intro first hdec hpw
    rw [List.pairwise_cons] at hpw
    obtain ⟨hy_ys, hys⟩ := hpw
    have hstep : pickMax first (y :: ys)
        = pickMax (if first.2 < y.2 then y else first) ys := rfl
    by_cases hc : first.2 < y.2
    · have hih := ih y hy_ys hys
      rw [hstep, if_pos hc]
      constructor
      · intro z hz
        have hy_le := hih.1 y (List.mem_cons_self y ys)
        rcases List.mem_cons.mp hz with rfl | hz'
        · omega
        · rcases List.mem_cons.mp hz' with rfl | hz''
          · exact hy_le
          · exact hih.1 z (List.mem_cons_of_mem y hz'')
      · intro z hz heq
        have hy_le := hih.1 y (List.mem_cons_self y ys)
        rcases List.mem_cons.mp hz with rfl | hz'
        · omega
        · rcases List.mem_cons.mp hz' with rfl | hz''
          · exact hih.2 z (List.mem_cons_self z ys) heq
          · exact hih.2 z (List.mem_cons_of_mem y hz'') heq
    · have hdec' : ∀ z ∈ ys, z.1 < first.1 := fun z hz =>
        hdec z (List.mem_cons_of_mem y hz)
      have hih := ih first hdec' hys
      rw [hstep, if_neg hc]
      constructor
      · intro z hz
        have hf_le := hih.1 first (List.mem_cons_self first ys)
        rcases List.mem_cons.mp hz with rfl | hz'
        · exact hf_le
        · rcases List.mem_cons.mp hz' with rfl | hz''
          · omega
          · exact hih.1 z (List.mem_cons_of_mem first hz'')
      · intro z hz heq
        have hf_le := hih.1 first (List.mem_cons_self first ys)
        rcases List.mem_cons.mp hz with rfl | hz'
        · exact hih.2 z (List.mem_cons_self z ys) heq
        · rcases List.mem_cons.mp hz' with rfl | hz''
          · have hz1 : z.1 < first.1 := hdec z (List.mem_cons_self z ys)
            have : first.1 ≤ (pickMax first ys).1 :=
              hih.2 first (List.mem_cons_self first ys) (by omega)
            omega
          · exact hih.2 z (List.mem_cons_of_mem first hz'') heq

/-- The sequential score updates of `_find_best_break_point` equal the sum of
the individual bonuses and penalties plus the raw position. -/
theorem scoreAt_eq_sum (buf : List Char) (next : Option Char) (p : Nat) :
    scoreAt buf next p =
      (if charTypeOf (enderAt buf p) = CharType.kanji ∧
          charTypeOf (starterAt buf next p) = CharType.kanji
       then (-100 : Int) else 0) +
      (if (charTypeOf (enderAt buf p) = CharType.katakana ∧
           charTypeOf (starterAt buf next p) = CharType.katakana) ∨
          (charTypeOf (enderAt buf p) = CharType.alpha ∧
           charTypeOf (starterAt buf next p) = CharType.alpha)
       then (-50 : Int) else 0) +
      (if charTypeOf (enderAt buf p) = CharType.hiragana ∧
          charTypeOf (starterAt buf next p) = CharType.kanji
       then (30 : Int) else 0) +
      (if charTypeOf (enderAt buf p) ≠ charTypeOf (starterAt buf next p)
       then (10 : Int) else 0) +
      (p : Int) := by
  simp only [scoreAt]
  generalize charTypeOf (enderAt buf p) = e
  generalize charTypeOf (starterAt buf next p) = s
  cases e <;> cases s <;> simp

/-- C2: for a non-empty buffer, `_find_best_break_point` (a) scores each
candidate as 0, −100 when ender and starter are both Kanji, −50 when both
Katakana or both LatinAlpha, +30 when the ender is Hiragana and the starter
Kanji, +10 when the classes differ, plus the position `p`; (b) returns
`len(buffer)` when every candidate `p ∈ [1, len]` is rejected (starter in
`LineStartProhibited` or ender in `LineEndProhibited`); and (c) otherwise
returns a surviving candidate of maximal score, ties going to the highest
position. The starter at `p` is `buffer[p]` for `p < len` and the overflowing
character `full_text[next_char_idx]` at `p = len`, per `starterAt`. -/
theorem break_point_selector_spec (buf full : List Char) (idx : Nat)
    (hne : buf ≠ []) :
    (∀ p : Nat, scoreAt buf (full.get? idx) p =
       (if charTypeOf (enderAt buf p) = CharType.kanji ∧
           charTypeOf (starterAt buf (full.get? idx) p) = CharType.kanji
        then (-100 : Int) else 0) +
       (if (charTypeOf (enderAt buf p) = CharType.katakana ∧
            charTypeOf (starterAt buf (full.get? idx) p) = CharType.katakana) ∨
           (charTypeOf (enderAt buf p) = CharType.alpha ∧
            charTypeOf (starterAt buf (full.get? idx) p) = CharType.alpha)
        then (-50 : Int) else 0) +
       (if charTypeOf (enderAt buf p) = CharType.hiragana ∧
           charTypeOf (starterAt buf (full.get? idx) p) = CharType.kanji
        then (30 : Int) else 0) +
       (if charTypeOf (enderAt buf p) ≠
           charTypeOf (starterAt buf (full.get? idx) p)
        then (10 : Int) else 0) +
       (p : Int)) ∧
    ((∀ p, 1 ≤ p → p ≤ buf.length →
        rejectedAt buf (full.get? idx) p = true) →
      _find_best_break_point buf full idx = buf.length) ∧
    (∀ p0, 1 ≤ p0 → p0 ≤ buf.length →
      rejectedAt buf (full.get? idx) p0 = false →
      1 ≤ _find_best_break_point buf full idx ∧
      _find_best_break_point buf full idx ≤ buf.length ∧
      rejectedAt buf (full.get? idx)
        (_find_best_break_point buf full idx) = false ∧
      ∀ q, 1 ≤ q → q ≤ buf.length →
        rejectedAt buf (full.get? idx) q = false →
        scoreAt buf (full.get? idx) q ≤
          scoreAt buf (full.get? idx) (_find_best_break_point buf full idx) ∧
        (scoreAt buf (full.get? idx) q =
           scoreAt buf (full.get? idx) (_find_best_break_point buf full idx) →
         q ≤ _find_best_break_point buf full idx)) := by
  have hb : _find_best_break_point buf full idx =
      (match candidateList buf (full.get? idx) with
       | [] => buf.length
       | c :: cs => (pickMax c cs).1) := by
    unfold _find_best_break_point
    simp [hne]
  refine ⟨?_, ?_, ?_⟩
  · intro p
    exact scoreAt_eq_sum buf (full.get? idx) p
  · intro h
    rw [candidateList_eq_nil_iff.mpr h] at hb
    exact hb
  · intro p0 h1 h2 h3
    cases hc : candidateList buf (full.get? idx) with
    | nil =>
      exact absurd (candidateList_eq_nil_iff.mp hc p0 h1 h2)
        (by rw [h3]; exact Bool.false_ne_true)
    | cons c cs =>
      rw [hc] at hb
      have hpw := candidateList_pairwise buf (full.get? idx)
      rw [hc, List.pairwise_cons] at hpw
      have hspec := pickMax_spec cs c hpw.1 hpw.2
      have hmem := pickMax_mem c cs
      rw [← hc] at hmem
      have hr := mem_candidateList.mp hmem
      refine ⟨by rw [hb]; exact hr.1, by rw [hb]; exact hr.2.1,
        by rw [hb]; exact hr.2.2.1, ?_⟩
      intro q hq1 hq2 hq3
      have hqmem : (q, scoreAt buf (full.get? idx) q) ∈
          candidateList buf (full.get? idx) :=
        mem_candidateList.mpr ⟨hq1, hq2, hq3, rfl⟩
      rw [hc] at hqmem
      have hle := hspec.1 _ hqmem
      have htie := hspec.2 _ hqmem
      simp only at hle htie
      rw [hb]
      have hpm2 : (pickMax c cs).2 =
          scoreAt buf (full.get? idx) (pickMax c cs).1 := hr.2.2.2
      rw [hpm2] at hle htie
      exact ⟨hle, htie⟩

/-- Witness for C2 on the buffer `['あ', '漢']` with overflowing character
`'字'`: position 1 survives, so the selection clause applies. -/
theorem break_point_selector_spec_witness :
    1 ≤ _find_best_break_point ['あ', '漢'] ['あ', '漢', '字'] 2 ∧
    _find_best_break_point ['あ', '漢'] ['あ', '漢', '字'] 2 ≤
      (['あ', '漢'] : List Char).length ∧
    rejectedAt ['あ', '漢'] ((['あ', '漢', '字'] : List Char).get? 2)
      (_find_best_break_point ['あ', '漢'] ['あ', '漢', '字'] 2) = false := by
  have h := (break_point_selector_spec ['あ', '漢'] ['あ', '漢', '字'] 2
    (by decide)).2.2 1 (by decide) (by decide) (by decide)
  exact ⟨h.1, h.2.1, h.2.2.1⟩

/-- The head of a dropped list is the element at the drop index. -/
theorem head?_drop_eq_get? (l : List Char) (n : Nat) :
    (l.drop n).head? = l.get? n := by
  rw [← List.get?_zero, List.get?_drop]
  norm_num

/-- Reading the character at the current index from the remaining input. -/
theorem drop_cons_get? {l rest : List Char} {c : Char} {i : Nat}
    (h : l.drop i = c :: rest) : l.get? i = some c := by
  rw [← head?_drop_eq_get?, h]
  rfl

/-- Advancing the current index drops the head of the remaining input. -/
theorem drop_cons_succ {l rest : List Char} {c : Char} {i : Nat}
    (h : l.drop i = c :: rest) : l.drop (i + 1) = rest := by
  rw [← List.drop_drop, h]
  rfl

/-- The head of an append is the head of a non-empty left part. -/
theorem head?_append_left {l l' : List Char} (h : l ≠ []) :
    (l ++ l').head? = l.head? := by
  cases l with
  | nil => exact absurd rfl h
  | cons a t => rfl

/-- Taking a positive number of characters preserves the head. -/
theorem head?_take_pos {l : List Char} {n : Nat} (h : 0 < n) :
    (l.take n).head? = l.head? := by
  rw [List.head?_take]
  simp [Nat.pos_iff_ne_zero.mp h]

/-- Consecutive elements of a `Chain'` list are related. -/
theorem chain'_get_pair {α : Type} {R : α → α → Prop} :
    ∀ (L : List α) (j : Nat) (a b : α), L.Chain' R →
      L.get? j = some a → L.get? (j + 1) = some b → R a b := by
  intro L
  induction L with
  | nil => intro j a b _ h1 _; simp at h1
  | cons x t ih =>
    intro j a b hch h1 h2
    cases t with
    | nil =>
      cases j with
      | zero => simp at h2
      | succ j => simp at h1
    | cons y t2 =>
      rw [List.chain'_cons] at hch
      cases j with
      | zero =>
        rw [List.get?_cons_zero] at h1
        rw [List.get?_cons_succ, List.get?_cons_zero] at h2
        obtain rfl := Option.some.inj h1
        obtain rfl := Option.some.inj h2
        exact hch.1
      | succ j =>
        rw [List.get?_cons_succ] at h1 h2
        exact ih j a b hch.2 h1 h2

/-- When the selector's own result is rejected, no candidate at all survived,
so every in-range position is rejected. -/
theorem fbbp_all_rejected_of_rejected (buf full : List Char) (idx : Nat)
    (hne : buf ≠ [])
    (hr : rejectedAt buf (full.get? idx)
        (_find_best_break_point buf full idx) = true) :
    ∀ p, 1 ≤ p → p ≤ buf.length →
      rejectedAt buf (full.get? idx) p = true := by
  rcases fbbp_cases buf full idx hne with ⟨hnil, _⟩ | ⟨_, _, hfalse⟩
  · exact candidateList_eq_nil_iff.mp hnil
  · rw [hfalse] at hr
    exact absurd hr (by simp)

/-- A mid-buffer break position returned by the selector has an unprohibited
starter, namely `buffer[p]`. -/
theorem fbbp_start_not_prohibited_of_lt (buf full : List Char) (idx : Nat)
    (hne : buf ≠ [])
    (hlt : _find_best_break_point buf full idx < buf.length) :
    inStartProhibited
      (buf.get? (_find_best_break_point buf full idx)) = false := by
  rcases fbbp_cases buf full idx hne with ⟨_, hlen⟩ | ⟨_, _, hfalse⟩
  · rw [hlen] at hlt
    omega
  · unfold rejectedAt at hfalse
    rw [Bool.or_eq_false_iff] at hfalse
    have h := hfalse.1
    unfold starterAt at h
    rw [if_pos hlt] at h
    exact h

/-- Splitting at the end of the buffer is rejected whenever the overflowing
character is prohibited at line start. -/
theorem rejectedAt_length_of_prohibited (buf : List Char) (c : Char)
    (h : c ∈ LINE_START_PROHIBITED) :
    rejectedAt buf (some c) buf.length = true := by
  unfold rejectedAt starterAt
  simp [inStartProhibited, h]

/-- Chain invariant of the wrap loop: consecutive output lines are always
`GoodPair`-related. The hypotheses say that the accumulated lines are
chained, that the buffer head is only a prohibited character if the last
accumulated line had all its splits rejected, and that an empty buffer only
occurs at the very start. -/
theorem wrap_go_chain (width : List Char → Nat) (max_width : Nat)
    (full_text : List Char) :
    ∀ (rest : List Char) (i : Nat) (current_line : List Char)
      (lines : List (List Char)),
      full_text.drop i = rest →
      lines.Chain' GoodPair →
      (∀ A, lines.getLast? = some A → GoodPair A current_line) →
      (current_line = [] → lines = []) →
      (_wrap_text_go width max_width full_text rest i current_line
          lines).Chain' GoodPair := by
  intro rest
  induction rest with
  | nil =>
    intro i current_line lines _ hchain hlink _
    simp only [_wrap_text_go]
    split
    · exact hchain
    · rw [List.chain'_append]
      refine ⟨hchain, List.chain'_singleton _, ?_⟩
      intro x hx y hy
      simp at hy
      subst hy
      exact hlink x hx
  | cons ch rest ih =>
    intro i current_line lines hdrop hchain hlink hinv
    have hi : full_text.get? i = some ch := drop_cons_get? hdrop
    have hdrop' : full_text.drop (i + 1) = rest := drop_cons_succ hdrop
    simp only [_wrap_text_go]
    split
    · refine ih (i + 1) (current_line ++ [ch]) lines hdrop' hchain ?_ ?_
      · intro A hA c hc hcp
        by_cases hcur : current_line = []
        · rw [hinv hcur] at hA
          simp at hA
        · rw [head?_append_left hcur] at hc
          exact hlink A hA c hc hcp
      · intro habs
        exact absurd habs (by simp)
    · split
      · next hcur =>
        rw [hinv hcur]
        refine ih (i + 1) [ch] [] hdrop' List.chain'_nil ?_ ?_
        · intro A hA
          simp at hA
        · intro habs
          exact absurd habs (by simp)
      · next hcur =>
        split
        · next hbp =>
          refine ih (i + 1) _ _ hdrop' ?_ ?_ ?_
          · rw [List.chain'_append]
            refine ⟨hchain, List.chain'_singleton _, ?_⟩
            intro x hx y hy
            simp at hy
            subst hy
            intro c hc hcp
            rw [head?_take_pos hbp.1] at hc
            exact hlink x hx c hc hcp
          · intro A hA c hc hcp
            rw [List.getLast?_concat] at hA
            obtain rfl := Option.some.inj hA
            exfalso
            have hdropne : current_line.drop
                (_find_best_break_point current_line full_text i) ≠ [] := by
              intro hnil
              rw [List.drop_eq_nil_iff] at hnil
              omega
            rw [head?_append_left hdropne, head?_drop_eq_get?] at hc
            have hnp := fbbp_start_not_prohibited_of_lt current_line full_text
              i hcur hbp.2
            rw [hc] at hnp
            simp [inStartProhibited] at hnp
            exact hnp hcp
          · intro habs
            exact absurd habs (by simp)
        · next hbp =>
          refine ih (i + 1) [ch] _ hdrop' ?_ ?_ ?_
          · rw [List.chain'_append]
            refine ⟨hchain, List.chain'_singleton _, ?_⟩
            intro x hx y hy
            simp at hy
            subst hy
            exact hlink x hx
          · intro A hA c hc hcp
            rw [List.getLast?_concat] at hA
            obtain rfl := Option.some.inj hA
            obtain rfl : ch = c := by simpa using hc
            have hlen : _find_best_break_point current_line full_text i
                = current_line.length := by
              rcases fbbp_cases current_line full_text i hcur with
                ⟨_, h⟩ | ⟨hb1, hb2, _⟩
              · exact h
              · omega
            have hrej : rejectedAt current_line (full_text.get? i)
                (_find_best_break_point current_line full_text i) = true := by
              rw [hlen, hi]
              exact rejectedAt_length_of_prohibited current_line ch hcp
            intro p hp1 hp2
            have hall := fbbp_all_rejected_of_rejected current_line full_text
              i hcur hrej p hp1 hp2
            rw [hi] at hall
            exact hall
          · intro habs
            exact absurd habs (by simp)

/-- C3 counterexample: wrapping the two-character Title `"あが"` with a
uniform 1000-wide glyph measure at the configured budget produces a second
Line whose first character `'が'` is in `LINE_START_PROHIBITED`, although the
Title has length 2 and `'が'` is not its first character: the only candidate
split of the buffer `"あ"` is rejected, and the fallback lets the prohibited
overflowing character open a line. -/
theorem wrap_prohibited_start_counterexample :
    _wrap_text (fun s => 1000 * s.length) MAX_TEXT_WIDTH ['あ', 'が']
        = [['あ'], ['が']] ∧
    'が' ∈ LINE_START_PROHIBITED ∧
    (['あ', 'が'] : List Char).length = 2 := by
  decide

/-- C3 amended: a Line other than the first can start with a character `c` in
`LINE_START_PROHIBITED` only when every candidate split of the immediately
preceding Line (the buffer flushed whole at that break) was rejected by the
prohibition rules with `c` as the overflowing character — i.e. exactly when
`_find_best_break_point` took its no-survivor fallback. -/
theorem wrap_prohibited_start_amended (width : List Char → Nat)
    (max_width : Nat) (text : List Char) (j : Nat) (A l : List Char)
    (c : Char)
    (h1 : (_wrap_text width max_width text).get? j = some A)
    (h2 : (_wrap_text width max_width text).get? (j + 1) = some l)
    (hc : l.head? = some c) (hcp : c ∈ LINE_START_PROHIBITED) :
    AllRejected A c := by
  have hch : (_wrap_text width max_width text).Chain' GoodPair := by
    simp only [_wrap_text]
    split
    · exact List.chain'_singleton _
    · exact wrap_go_chain width max_width text text 0 [] [] (by simp)
        List.chain'_nil (by intro A hA; simp at hA) (fun _ => rfl)
  exact chain'_get_pair _ j A l hch h1 h2 c hc hcp

/-- Witness for C3 amended on the Title `"あが"`: the sole split position of
the preceding line `"あ"` is indeed rejected. -/
theorem wrap_prohibited_start_amended_witness :
    rejectedAt ['あ'] (some 'が') 1 = true :=
  wrap_prohibited_start_amended (fun s => 1000 * s.length) MAX_TEXT_WIDTH
    ['あ', 'が'] 0 ['あ'] ['が'] 'が' (by decide) (by decide) (by decide)
    (by decide) 1 (by decide) (by decide)

/-- C9: wrapping loses, duplicates and reorders nothing — the concatenation
of the Lines returned by `_wrap_text` is the input Title, for every Title and
every glyph-measuring capability. -/
theorem wrap_concat_eq_input (width : List Char → Nat) (max_width : Nat)
    (text : List Char) :
    (_wrap_text width max_width text).flatten = text := by
  have h := wrap_go_join width max_width text text 0 [] []
  simp only [_wrap_text]
  split
  · next heq =>
    rw [heq] at h
    simp at h
    simp [h]
  · rw [h]; simp

/-- C8: for every Title and every glyph-measuring capability `_wrap_text`
returns at least one Line, and on the empty Title it returns exactly one Line
holding the empty string. -/
theorem wrap_at_least_one_line (width : List Char → Nat) (max_width : Nat)
    (text : List Char) :
    1 ≤ (_wrap_text width max_width text).length ∧
    _wrap_text width max_width [] = [[]] := by
  constructor
  · simp only [_wrap_text]
    split
    · simp
    · next h => exact Nat.one_le_iff_ne_zero.mpr (by simpa using h)
  · rfl

/-- C10: for every non-empty buffer `_find_best_break_point` returns a
position `p` with `1 ≤ p ≤ len(buffer)` (so every slice in `_wrap_text`'s
break branch is in range), and for every non-empty Title every Line
`_wrap_text` emits is non-empty. -/
theorem break_point_in_range_and_lines_nonempty :
    (∀ (buf full : List Char) (idx : Nat), buf ≠ [] →
       1 ≤ _find_best_break_point buf full idx ∧
       _find_best_break_point buf full idx ≤ buf.length) ∧
    (∀ (width : List Char → Nat) (max_width : Nat) (text : List Char),
       text ≠ [] → ∀ l ∈ _wrap_text width max_width text, l ≠ []) := by
  constructor
  · intro buf full idx h
    rcases fbbp_cases buf full idx h with ⟨_, he⟩ | ⟨h1, h2, _⟩
    · rw [he]
      have : buf.length ≠ 0 := by simpa [List.length_eq_zero] using h
      omega
    · exact ⟨h1, h2⟩
  · intro width max_width text ht l hl
    simp only [_wrap_text] at hl
    split at hl
    · simp at hl; subst hl; exact ht
    · exact wrap_go_ne_nil width max_width text text 0 [] [] (by simp) l hl

/-- Witness for C10: the break point of the buffer `['a']` is in range, and
the single line wrapped from `"a"` is non-empty. -/
theorem break_point_in_range_witness :
    (1 ≤ _find_best_break_point ['a'] [] 0 ∧
     _find_best_break_point ['a'] [] 0 ≤ (['a'] : List Char).length) ∧
    (['a'] : List Char) ≠ [] :=
  ⟨break_point_in_range_and_lines_nonempty.1 ['a'] [] 0 (by decide),
   break_point_in_range_and_lines_nonempty.2 (fun s => s.length) 2 ['a']
     (by decide) ['a'] (by decide)⟩

/-- Line-width invariant of the wrap loop under a uniform glyph measure
`width(s) = w * len(s)`: every emitted line fits the budget or is a single
character; the buffer always fits the budget or holds at most one
character. -/
theorem wrap_go_uniform (w max_width : Nat) (full_text : List Char) :
    ∀ (rest : List Char) (i : Nat) (current_line : List Char)
      (lines : List (List Char)),
      (∀ l ∈ lines, w * l.length ≤ max_width ∨
        (l.length = 1 ∧ max_width < w)) →
      (w * current_line.length ≤ max_width ∨ current_line.length ≤ 1) →
      ∀ l ∈ _wrap_text_go (fun s => w * s.length) max_width full_text rest i
          current_line lines,
        w * l.length ≤ max_width ∨ (l.length = 1 ∧ max_width < w) := by
  intro rest
  induction rest with
  | nil =>
    intro i current_line lines hlines hbuf l hl
    simp only [_wrap_text_go] at hl
    split at hl
    · exact hlines l hl
    · next hne =>
      rcases List.mem_append.mp hl with h1 | h1
      · exact hlines l h1
      · simp at h1; subst h1
        rcases hbuf with h | h
        · exact Or.inl h
        · have hlen : l.length = 1 := by
            have : l.length ≠ 0 := by simpa [List.length_eq_zero] using hne
            omega
          rcases Nat.lt_or_ge max_width w with hw | hw
          · exact Or.inr ⟨hlen, hw⟩
          · exact Or.inl (by rw [hlen]; omega)
  | cons ch rest ih =>
    intro i current_line lines hlines hbuf l hl
    simp only [_wrap_text_go] at hl
    split at hl
    · next hfit => exact ih _ _ _ hlines (Or.inl hfit) l hl
    · split at hl
      · exact ih _ _ _ hlines (Or.inr (by simp)) l hl
      · split at hl
        · next hne hbp =>
          refine ih _ _ _ ?_ ?_ l hl
          · intro l' hl'
            rcases List.mem_append.mp hl' with h1 | h1
            · exact hlines l' h1
            · simp at h1; subst h1
              rcases hbuf with h | h
              · refine Or.inl ?_
                have : (List.take (_find_best_break_point current_line
                    full_text i) current_line).length ≤ current_line.length :=
                  by simp [List.length_take]
                calc w * (List.take (_find_best_break_point current_line
                        full_text i) current_line).length
                    ≤ w * current_line.length := Nat.mul_le_mul_left w this
                  _ ≤ max_width := h
              · omega
          · rcases hbuf with h | h
            · refine Or.inl ?_
              have : (List.drop (_find_best_break_point current_line
                  full_text i) current_line ++ [ch]).length ≤
                    current_line.length := by
                simp [List.length_drop]
                omega
              calc w * (List.drop (_find_best_break_point current_line
                      full_text i) current_line ++ [ch]).length
                  ≤ w * current_line.length := Nat.mul_le_mul_left w this
                _ ≤ max_width := h
            · omega
        · next hne _ =>
          refine ih _ _ _ ?_ (Or.inr (by simp)) l hl
          intro l' hl'
          rcases List.mem_append.mp hl' with h1 | h1
          · exact hlines l' h1
          · simp at h1; subst h1
            rcases hbuf with h | h
            · exact Or.inl h
            · have hlen : l'.length = 1 := by
                have : l'.length ≠ 0 := by simpa [List.length_eq_zero] using hne
                omega
              rcases Nat.lt_or_ge max_width w with hw | hw
              · exact Or.inr ⟨hlen, hw⟩
              · exact Or.inl (by rw [hlen]; omega)

/-- C1 counterexample: with the additive glyph measure giving `'あ'` width
200 and every other character width 800, wrapping
`"あ漢字"` at the configured budget `MAX_TEXT_WIDTH = 1024` produces the
two-character line `"漢字"` of measured width 1600 > 1024 — not a single
character that alone exceeds the budget. The claim as stated (over every
glyph-measuring capability) therefore fails. -/
theorem wrap_width_budget_counterexample :
    _wrap_text (fun s => (s.map fun c => if c = 'あ' then 200 else 800).sum)
        MAX_TEXT_WIDTH ['あ', '漢', '字'] = [['あ'], ['漢', '字']] ∧
    ((['漢', '字'] : List Char).map fun c =>
        if c = 'あ' then 200 else 800).sum = 1600 ∧
    MAX_TEXT_WIDTH < 1600 ∧
    (['漢', '字'] : List Char).length = 2 := by
  decide

/-- C1 amended: for a uniform glyph measure (`w` per character, widths add),
every Line produced by `_wrap_text` has measured width within the budget,
except single-character Lines when one character alone exceeds the budget —
and there may be several such Lines per Title, not at most one. For
non-uniform additive measures the bound can fail on multi-character Lines
(see the counterexample), because a mid-buffer break re-seeds the buffer
with the unemitted suffix plus the overflowing character without
re-measuring it. -/
theorem wrap_width_budget_uniform (w max_width : Nat) (text : List Char) :
    ∀ l ∈ _wrap_text (fun s => w * s.length) max_width text,
      w * l.length ≤ max_width ∨ (l.length = 1 ∧ max_width < w) := by
  intro l hl
  simp only [_wrap_text] at hl
  split at hl
  · next heq =>
    have hj := wrap_go_join (fun s => w * s.length) max_width text text 0 [] []
    rw [heq] at hj
    have htext : text = [] := by simpa using hj.symm
    subst htext
    simp at hl
    subst hl
    exact Or.inl (by simp)
  · exact wrap_go_uniform w max_width text text 0 [] [] (by simp)
      (Or.inr (by simp)) l hl

/-- Witness for C1 amended: with `w = 4` and budget 8, the first line wrapped
from `"abc"` is `"ab"` and fits the budget. -/
theorem wrap_width_budget_uniform_witness :
    4 * (['a', 'b'] : List Char).length ≤ 8 ∨
    ((['a', 'b'] : List Char).length = 1 ∧ 8 < 4) :=
  wrap_width_budget_uniform 4 8 ['a', 'b', 'c'] ['a', 'b'] (by decide)

/-- C4: the Adaptive Sizer `_calculate_font_size` is a pure step function of
the Title's character count — `≤10 → 120`, `11..15 → 100`, `16..20 → 85`,
`21..25 → 70`, `26..30 → 60`, `>30 → 50` — and is monotonically
non-increasing in the character count. -/
theorem font_size_step_and_monotone (t : List Char) :
    ((t.length ≤ 10 → _calculate_font_size t = 120) ∧
     (10 < t.length → t.length ≤ 15 → _calculate_font_size t = 100) ∧
     (15 < t.length → t.length ≤ 20 → _calculate_font_size t = 85) ∧
     (20 < t.length → t.length ≤ 25 → _calculate_font_size t = 70) ∧
     (25 < t.length → t.length ≤ 30 → _calculate_font_size t = 60) ∧
     (30 < t.length → _calculate_font_size t = 50)) ∧
    (∀ u : List Char, t.length ≤ u.length →
      _calculate_font_size u ≤ _calculate_font_size t) := by
  constructor
  · unfold _calculate_font_size
    refine ⟨?_, ?_, ?_, ?_, ?_, ?_⟩ <;> intros <;> split_ifs <;> omega
  · intro u hu
    unfold _calculate_font_size
    split_ifs <;> omega

/-- Witness for C4 at concrete lengths 12 and 18. -/
theorem font_size_step_and_monotone_witness :
    _calculate_font_size (List.replicate 12 'あ') = 100 ∧
    _calculate_font_size (List.replicate 18 'あ') ≤
      _calculate_font_size (List.replicate 12 'あ') := by
  refine ⟨?_, ?_⟩
  · exact (font_size_step_and_monotone (List.replicate 12 'あ')).1.2.1
      (by decide) (by decide)
  · exact (font_size_step_and_monotone (List.replicate 12 'あ')).2
      (List.replicate 18 'あ') (by decide)

/-- C5 counterexample: on `"プログラミング初心者が最短で成長する勉強法"`
(21 characters, not 22) the Adaptive Sizer does not select 85pt. -/
theorem font_size_example_not_85 :
    _calculate_font_size ("プログラミング初心者が最短で成長する勉強法".toList) ≠ 85 := by
  decide

/-- C5 amended: on `"プログラミング初心者が最短で成長する勉強法"` — which has
21 characters, in the 21..25 tier — the Adaptive Sizer selects 70pt. -/
theorem font_size_example_70 :
    ("プログラミング初心者が最短で成長する勉強法".toList).length = 21 ∧
    _calculate_font_size ("プログラミング初心者が最短で成長する勉強法".toList) = 70 := by
  decide

/-- C7: the synthesized gradient has row 0 exactly equal to the start colour
`(102, 126, 234)`; row `IMAGE_HEIGHT - 1 = 669` equal to the end colour
`(118, 75, 162)` within 1 per channel; and each channel is monotone in the
row index (red non-decreasing towards the end colour, green and blue
non-increasing). -/
theorem gradient_endpoints_and_monotone :
    _create_gradient_background 0 = GRADIENT_START ∧
    (((_create_gradient_background (IMAGE_HEIGHT - 1)).1 : Int) -
        (GRADIENT_END.1 : Int)).natAbs ≤ 1 ∧
    (((_create_gradient_background (IMAGE_HEIGHT - 1)).2.1 : Int) -
        (GRADIENT_END.2.1 : Int)).natAbs ≤ 1 ∧
    (((_create_gradient_background (IMAGE_HEIGHT - 1)).2.2 : Int) -
        (GRADIENT_END.2.2 : Int)).natAbs ≤ 1 ∧
    (∀ y1 y2 : Nat, y1 ≤ y2 →
      gradR y1 ≤ gradR y2 ∧ gradG y2 ≤ gradG y1 ∧ gradB y2 ≤ gradB y1) := by
  refine ⟨by decide, by decide, by decide, by decide, ?_⟩
  intro y1 y2 h
  unfold gradR gradG gradB IMAGE_HEIGHT
  refine ⟨?_, ?_, ?_⟩
  · exact Nat.div_le_div_right (by omega)
  · exact Nat.div_le_div_right (by omega)
  · exact Nat.div_le_div_right (by omega)

/-- Witness for C7's monotonicity clause at rows 3 and 5. -/
theorem gradient_endpoints_and_monotone_witness :
    gradR 3 ≤ gradR 5 ∧ gradG 5 ≤ gradG 3 ∧ gradB 5 ≤ gradB 3 :=
  gradient_endpoints_and_monotone.2.2.2.2 3 5 (by decide)

/-- C6 counterexample: when the `.png` candidate path exists but its decode
fails, `_load_background_image` propagates the failure instead of falling
back to the gradient — there is no exception handling around
`Image.open(path).convert("RGB")` in the source, so background resolution
can fail. -/
theorem background_decode_failure_counterexample :
    _load_background_image
        (fun p => p == candidatePath ".png")
        (fun _ => Except.error "decode failure") ()
      = Except.error "decode failure" := by
  rfl

/-- C6 amended: the gradient fallback is taken exactly when no candidate path
exists, and in that case resolution always succeeds; but when the first
candidate path exists, `_load_background_image` returns whatever the decode
produces, so a decode failure propagates as an error. -/
theorem background_resolution_amended {Img : Type} (fs_exists : String → Bool)
    (open_resize : String → Except String Img) (gradient : Img) :
    ((∀ ext ∈ backgroundExtensions, fs_exists (candidatePath ext) = false) →
      _load_background_image fs_exists open_resize gradient
        = Except.ok gradient) ∧
    (fs_exists (candidatePath ".png") = true →
      _load_background_image fs_exists open_resize gradient
        = open_resize (candidatePath ".png")) ∧
    (∀ e : String, fs_exists (candidatePath ".png") = true →
      open_resize (candidatePath ".png") = Except.error e →
      _load_background_image fs_exists open_resize gradient
        = Except.error e) := by
  refine ⟨?_, ?_, ?_⟩
  · intro h
    have h1 := h ".png" (by simp [backgroundExtensions])
    have h2 := h ".jpg" (by simp [backgroundExtensions])
    have h3 := h ".jpeg" (by simp [backgroundExtensions])
    simp [_load_background_image, _load_background_image_go,
      backgroundExtensions, h1, h2, h3]
  · intro h
    simp [_load_background_image, _load_background_image_go,
      backgroundExtensions, h]
  · intro e h he
    simp [_load_background_image, _load_background_image_go,
      backgroundExtensions, h, he]

/-- Witness for C6 amended: with no candidate path existing, resolution
returns the gradient. -/
theorem background_resolution_amended_witness :
    _load_background_image (fun _ => false)
      (fun _ => Except.error "x") () = Except.ok () :=
  (background_resolution_amended (fun _ => false)
      (fun _ => Except.error "x") ()).1 (fun _ _ => rfl)
